import Mathlib

/-!
Verification of the concurrency and resource-management core of the
go_project name-generation HTTP service.

Each Go component is shallowly embedded as a Lean definition:
mutable receivers become explicit state passing, `time.Time` /
`time.Duration` values become integers (nanoseconds) or rationals
(seconds), Go's `float64` arithmetic on token counts is modelled by
exact rational arithmetic, and Go's `int64(x)` conversion is modelled
by truncation toward zero.
-/

namespace GoProject

/-- Go's `int64(x)` conversion of a float value: rounds toward zero.
On a rational `num/den` (with `den > 0`) this is the truncating integer
division of the numerator by the denominator. -/
def truncToInt (x : ℚ) : ℤ := Int.tdiv x.num x.den

/-! ### Token bucket limiter (internal/ratelimit, `TokenBucketLimiter`)

Fields mirror the Go struct: `rate` is tokens per second (`float64`,
modelled as `ℚ`), `capacity` and `tokens` are `int64` (modelled as `ℤ`),
and `lastRefillTime` is a wall-clock instant in seconds (modelled as
`ℚ`, so that `elapsed := now - lastRefillTime` matches
`now.Sub(l.lastRefillTime).Seconds()`). -/

structure TokenBucketLimiter where
  rate : ℚ
  capacity : ℤ
  tokens : ℤ
  lastRefillTime : ℚ

/-- `NewTokenBucketLimiter`: starts with a full bucket. -/
def mkTokenBucketLimiter (rate : ℚ) (capacity : ℤ) (now : ℚ) : TokenBucketLimiter :=
  { rate := rate, capacity := capacity, tokens := capacity, lastRefillTime := now }

/-- `refill`: computes `elapsed` seconds since the last refill, resets
`lastRefillTime` unconditionally, converts `elapsed * rate` to `int64`
(truncating), and adds the result clamped to capacity only when it is
positive. -/
def TokenBucketLimiter.refill (l : TokenBucketLimiter) (now : ℚ) : TokenBucketLimiter :=
  let elapsed := now - l.lastRefillTime
  let newTokens := truncToInt (elapsed * l.rate)
  if newTokens > 0 then
    { l with tokens := min l.capacity (l.tokens + newTokens), lastRefillTime := now }
  else
    { l with lastRefillTime := now }

/-- `TryAllow`: refills, then consumes one token when one is available. -/
def TokenBucketLimiter.tryAllow (l : TokenBucketLimiter) (now : ℚ) :
    Bool × TokenBucketLimiter :=
  let l1 := l.refill now
  if l1.tokens > 0 then (true, { l1 with tokens := l1.tokens - 1 })
  else (false, l1)

/-! ### Sliding window limiter (internal/ratelimit, `SlidingWindowLimiter`)

Timestamps are nanosecond instants modelled as `ℤ`; `windowDuration`
is a `time.Duration` modelled as `ℤ` nanoseconds.  Go's
`t.Before(cutoff)` is the strict order `t < cutoff`. -/

structure SlidingWindowLimiter where
  maxRequests : ℤ
  windowDuration : ℤ
  requests : List ℤ

/-- `pruneExpiredRequests`: drops the leading run of timestamps that are
strictly before `now - windowDuration` (the loop stops at the first
timestamp not `Before` the cutoff). -/
def SlidingWindowLimiter.pruneExpiredRequests (l : SlidingWindowLimiter) (now : ℤ) :
    SlidingWindowLimiter :=
  { l with requests := l.requests.dropWhile (fun ts => ts < now - l.windowDuration) }

/-- `TryAllow`: prunes, then appends the current instant when the
window has room. -/
def SlidingWindowLimiter.tryAllow (l : SlidingWindowLimiter) (now : ℤ) :
    Bool × SlidingWindowLimiter :=
  let l1 := l.pruneExpiredRequests now
  if (l1.requests.length : ℤ) < l1.maxRequests then
    (true, { l1 with requests := l1.requests ++ [now] })
  else (false, l1)

/-! ### Composite limiter (internal/ratelimit, `CompositeRateLimiter`)

The composite holds an ordered sequence of constituent limiters.  Each
constituent owns its own state and is consulted through its `TryAllow`
step function `f : L → Bool × L`; a constituent's call never touches
another constituent's state.  The loop returns `false` on the first
rejection without consulting the remaining limiters. -/

def compositeTryAllow {L : Type} (f : L → Bool × L) : List L → Bool × List L
  | [] => (true, [])
  | l :: rest =>
    match f l with
    | (true, l1) =>
      let r := compositeTryAllow f rest
      (r.1, l1 :: r.2)
    | (false, l1) => (false, l1 :: rest)

/-! ### Metrics collector (internal/metrics)

Counters are `uint64`/`int64` in Go; totals are modelled as `ℕ` and the
concurrency gauge as `ℤ` (it is signed in the source and really can go
negative, see the double-completion theorem).  Response times are
`time.Duration` nanoseconds, modelled as `ℤ`. -/

/-- `ConcurrentTimeSlice.Add`: appends a sample and keeps only the most
recent 10,000. -/
def timeSliceAdd (times : List ℤ) (t : ℤ) : List ℤ :=
  let ts := times ++ [t]
  if ts.length > 10000 then ts.drop (ts.length - 10000) else ts

/-- `ConcurrentTimeSlice.GetPercentile`: zero on an empty slice;
otherwise sorts a copy ascending and returns the element at index
`int(float64(n-1) * percentile / 100.0)`.  The sort is modelled by
`insertionSort` (the Go code calls `sort.Slice` with `<`; any sorted
ascending permutation of the copy is the same list of values), and the
float index computation by exact rational arithmetic truncated toward
zero, which agrees with the float computation on all percentile
arguments whose product does not land within float rounding error of an
integer (in particular on 50, 90, 99 used by the collector). -/
def getPercentile (times : List ℤ) (percentile : ℚ) : ℤ :=
  if times.length = 0 then 0
  else
    let timesCopy := times.insertionSort (· ≤ ·)
    let index := (truncToInt ((times.length - 1 : ℤ) * percentile / 100)).toNat
    timesCopy.getD index 0

structure MetricsCollector where
  requestsTotal : ℕ
  requestsSucceeded : ℕ
  requestsFailed : ℕ
  currentConcurrent : ℤ
  responseTimes : List ℤ

/-- Freshly constructed collector: all counters zero, no samples. -/
def MetricsCollector.initial : MetricsCollector :=
  { requestsTotal := 0, requestsSucceeded := 0, requestsFailed := 0
    currentConcurrent := 0, responseTimes := [] }

/-- `RecordRequest` (the part executed immediately): increments the
total and the concurrency gauge.  The returned closure is modelled by
`MetricsCollector.complete` below. -/
def MetricsCollector.recordRequest (m : MetricsCollector) : MetricsCollector :=
  { m with requestsTotal := m.requestsTotal + 1
           currentConcurrent := m.currentConcurrent + 1 }

/-- The completion closure returned by `RecordRequest`: records the
response time, decrements the concurrency gauge, and increments the
success or failure counter depending on the error argument.  The Go
closure has no one-shot guard; this function is exactly its body, so
invoking it a second time runs the body a second time. -/
def MetricsCollector.complete (m : MetricsCollector) (err : Option String)
    (responseTime : ℤ) : MetricsCollector :=
  let m1 := { m with responseTimes := timeSliceAdd m.responseTimes responseTime
                     currentConcurrent := m.currentConcurrent - 1 }
  match err with
  | none => { m1 with requestsSucceeded := m1.requestsSucceeded + 1 }
  | some _ => { m1 with requestsFailed := m1.requestsFailed + 1 }

/-- A request-lifecycle event against the collector: `start` is a
`RecordRequest` call, `finish err rt` is one invocation of a completion
closure with error marker `err` and measured response time `rt`. -/
inductive MetricsEvent where
  | start : MetricsEvent
  | finish (err : Option String) (responseTime : ℤ) : MetricsEvent

def metricsStep (m : MetricsCollector) : MetricsEvent → MetricsCollector
  | .start => m.recordRequest
  | .finish err rt => m.complete err rt

def runMetrics (tr : List MetricsEvent) : MetricsCollector :=
  tr.foldl metricsStep MetricsCollector.initial

def isStart : MetricsEvent → Bool
  | .start => true
  | .finish _ _ => false

def isFinish : MetricsEvent → Bool
  | .start => false
  | .finish _ _ => true

def isSuccessFinish : MetricsEvent → Bool
  | .finish none _ => true
  | _ => false

def isFailureFinish : MetricsEvent → Bool
  | .finish (some _) _ => true
  | _ => false

def countStarts (tr : List MetricsEvent) : ℕ := (tr.filter isStart).length

def countFinishes (tr : List MetricsEvent) : ℕ := (tr.filter isFinish).length

/-! ### LRU cache shard (internal/cache, `LRUCache`)

The Go shard keeps a `map[string]*LRUNode` together with a doubly
linked recency list threading the same nodes (head = most recently
used, tail = least recently used).  Keys in the map are unique, so map
plus list refine to a single list of `(key, value, expiration)` triples
ordered from most to least recently used; `moveToFront` becomes
"remove the key's entry and cons it at the head".  Expirations are
`int64` nanosecond instants (`0` = never expires). -/

structure LRUCache (V : Type) where
  capacity : ℕ
  entries : List (String × V × ℤ)

/-- Keys of a shard in recency order (head = MRU). -/
def lruKeys {V : Type} (c : LRUCache V) : List String := c.entries.map (·.1)

/-- `NewLRUCache`: an empty shard of the given capacity. -/
def mkLRUCache (V : Type) (capacity : ℕ) : LRUCache V :=
  { capacity := capacity, entries := [] }

/-- `LRUCache.Get`: a missing key is a miss; an expired entry is
removed and reported as a miss; otherwise the entry is promoted to the
front of the recency list and its value returned. -/
def LRUCache.get {V : Type} (c : LRUCache V) (key : String) (now : ℤ) :
    Option V × LRUCache V :=
  match c.entries.find? (fun p => p.1 = key) with
  | none => (none, c)
  | some (_, v, exp) =>
    if exp > 0 ∧ now > exp then
      (none, { c with entries := c.entries.filter (fun p => p.1 ≠ key) })
    else
      (some v, { c with entries := (key, v, exp) :: c.entries.filter (fun p => p.1 ≠ key) })

/-- `LRUCache.SetWithExpiration` (the part under the lock; the caller
computes the absolute expiration instant): an existing key has its
value and expiration replaced and is moved to the front; a new key is
inserted at the front, and if the shard then exceeds its capacity the
tail (least recently used) entry is evicted. -/
def LRUCache.setWithExpiration {V : Type} (c : LRUCache V) (key : String) (v : V)
    (exp : ℤ) : LRUCache V :=
  if c.entries.any (fun p => p.1 = key) then
    { c with entries := (key, v, exp) :: c.entries.filter (fun p => p.1 ≠ key) }
  else
    let entries1 := (key, v, exp) :: c.entries
    if entries1.length > c.capacity then
      { c with entries := entries1.dropLast }
    else
      { c with entries := entries1 }

/-- Sequential insertion of a batch of (key, value, expiration)
triples via `SetWithExpiration`. -/
def lruInsertAll {V : Type} (c : LRUCache V) (kvs : List (String × V × ℤ)) : LRUCache V :=
  kvs.foldl (fun acc kv => acc.setWithExpiration kv.1 kv.2.1 kv.2.2) c

/-! ### Sharded cache (internal/cache, `ConcurrentLRUCache`) -/

/-- The polynomial string hash used by `getShard`: `h = 31*h + byte`
over the key's bytes, on Go's 64-bit `int` (wrapping two's-complement
arithmetic), then sign-corrected.  The keys the server builds are
ASCII, so folding over code points agrees with folding over UTF-8
bytes. -/
def goStringHash (key : String) : ℤ :=
  let wrap : ℤ → ℤ := fun x => (x + 2 ^ 63) % 2 ^ 64 - 2 ^ 63
  let h := key.data.foldl (fun h c => wrap (31 * h + (c.toNat : ℤ))) 0
  if h < 0 then -h else h

structure ConcurrentLRUCache (V : Type) where
  shards : List (LRUCache V)

/-- `NewConcurrentLRUCache`: `numShards` shards (16 when the argument
is nonpositive) of capacity `max(1, totalCapacity / numShards)`. -/
def mkConcurrentLRUCache (V : Type) (totalCapacity : ℕ) (numShards : ℕ) :
    ConcurrentLRUCache V :=
  let n := if numShards = 0 then 16 else numShards
  let shardCapacity := max 1 (totalCapacity / n)
  { shards := List.replicate n (mkLRUCache V shardCapacity) }

/-- `getShard`: index of the shard owning a key. -/
def shardIndexOf {V : Type} (c : ConcurrentLRUCache V) (key : String) : ℕ :=
  (goStringHash key % (c.shards.length : ℤ)).toNat

/-- `ConcurrentLRUCache.Get`, routed to the owning shard. -/
def ConcurrentLRUCache.get {V : Type} (c : ConcurrentLRUCache V) (key : String)
    (now : ℤ) : Option V × ConcurrentLRUCache V :=
  let i := shardIndexOf c key
  match c.shards.get? i with
  | none => (none, c)
  | some shard =>
    let (r, shard1) := shard.get key now
    (r, { c with shards := c.shards.set i shard1 })

/-- `ConcurrentLRUCache.SetWithExpiration`, routed to the owning shard. -/
def ConcurrentLRUCache.setWithExpiration {V : Type} (c : ConcurrentLRUCache V)
    (key : String) (v : V) (exp : ℤ) : ConcurrentLRUCache V :=
  let i := shardIndexOf c key
  match c.shards.get? i with
  | none => c
  | some shard =>
    { c with shards := c.shards.set i (shard.setWithExpiration key v exp) }

/-! ### Name generator (internal/generator)

`NamesByLetter` is the fixed reference table, transcribed verbatim
(including the duplicate "Zara" in the Z row). -/

def namesByLetter : List (String × List String) := [
  ("A", ["Adam", "Anna", "Alex", "Ava", "Andrew", "Alice", "Aaron", "Abigail", "Anthony", "Amelia", "Austin", "Audrey", "Adrian", "Aria", "Alan", "Allison", "Aiden", "Aubrey", "Arthur", "Aurora"]),
  ("B", ["Benjamin", "Bella", "Brandon", "Bailey", "Brian", "Brooke", "Blake", "Brianna", "Bruce", "Brooklyn", "Bradley", "Brielle", "Brett", "Bethany", "Boris", "Bianca", "Bennett", "Bridget", "Byron", "Beatrice"]),
  ("C", ["Charles", "Charlotte", "Christopher", "Catherine", "Caleb", "Chloe", "Cameron", "Claire", "Cole", "Caroline", "Colin", "Camila", "Cooper", "Cecilia", "Connor", "Christina", "Calvin", "Cora", "Carter", "Celeste"]),
  ("D", ["David", "Daisy", "Daniel", "Diana", "Dylan", "Danielle", "Derek", "Destiny", "Dominic", "Delilah", "Diego", "Dahlia", "Damian", "Dorothy", "Dean", "Daphne", "Dustin", "Delaney", "Darius", "Denise"]),
  ("E", ["Edward", "Emma", "Ethan", "Emily", "Evan", "Elizabeth", "Elijah", "Ella", "Eric", "Eleanor", "Emmett", "Eden", "Elliott", "Evelyn", "Edwin", "Elise", "Edgar", "Eliana", "Ezra", "Eva"]),
  ("F", ["Frank", "Faith", "Felix", "Fiona", "Finn", "Felicity", "Fernando", "Florence", "Frederick", "Francesca", "Francisco", "Freya", "Fabian", "Flora", "Franklin", "Farrah", "Fletcher", "Fatima", "Forbes", "Finley"]),
  ("G", ["George", "Grace", "Gabriel", "Gabriella", "Grant", "Georgia", "Gregory", "Gemma", "Gavin", "Genevieve", "Graham", "Giselle", "Garrett", "Gwendolyn", "Glenn", "Gloria", "Gordon", "Gillian", "Gary", "Gianna"]),
  ("H", ["Henry", "Hannah", "Harrison", "Haley", "Harry", "Harper", "Hudson", "Hailey", "Hunter", "Heather", "Hugo", "Holly", "Harold", "Hope", "Hayes", "Helena", "Hector", "Harlow", "Howard", "Harmony"]),
  ("I", ["Isaac", "Isabella", "Ian", "Ivy", "Ivan", "Iris", "Isaiah", "Isla", "Ignacio", "Ingrid", "Ismael", "Iliana", "Irvin", "India", "Ibrahim", "Imogen", "Ira", "Irene", "Isiah", "Ines"]),
  ("J", ["James", "Jasmine", "John", "Julia", "Jacob", "Jennifer", "Joseph", "Jade", "Joshua", "Jessica", "Jack", "Jordan", "Julian", "Josephine", "Jason", "Jane", "Jeremy", "June", "Jesse", "Jocelyn"]),
  ("K", ["Kevin", "Katherine", "Kenneth", "Kate", "Keith", "Kylie", "Kyle", "Kimberly", "Kai", "Kelly", "Karl", "Kennedy", "Kane", "Kayla", "Keegan", "Kendall", "Kieran", "Keira", "Kaleb", "Kaitlyn"]),
  ("L", ["Lucas", "Lily", "Logan", "Lucy", "Liam", "Leah", "Leo", "Luna", "Louis", "Layla", "Leonard", "Lauren", "Lawrence", "Lillian", "Lance", "Leslie", "Lewis", "Lola", "Landon", "Lydia"]),
  ("M", ["Michael", "Maria", "Matthew", "Madison", "Mark", "Mia", "Miles", "Megan", "Maxwell", "Maya", "Morgan", "Molly", "Marcus", "Michelle", "Mason", "Melissa", "Malcolm", "Miranda", "Martin", "Madeline"]),
  ("N", ["Nathan", "Natalie", "Nicholas", "Nicole", "Noah", "Nina", "Neil", "Nora", "Nolan", "Naomi", "Nelson", "Noelle", "Norman", "Nancy", "Nathaniel", "Natasha", "Noel", "Nevaeh", "Niall", "Nadine"]),
  ("O", ["Oliver", "Olivia", "Oscar", "Ophelia", "Owen", "Octavia", "Omar", "Odette", "Otto", "Opal", "Orion", "Olga", "Orlando", "Olive", "Otis", "Olympia", "Oswald", "Orla", "Osvaldo", "Oakley"]),
  ("P", ["Peter", "Penelope", "Paul", "Patricia", "Patrick", "Paige", "Philip", "Phoebe", "Percy", "Paula", "Parker", "Priscilla", "Preston", "Pearl", "Pierce", "Poppy", "Perry", "Paloma", "Princeton", "Paulina"]),
  ("Q", ["Quentin", "Quinn", "Quincy", "Quiana", "Quinton", "Quimby", "Quade", "Questa", "Quest", "Queenie", "Quigley", "Quilla", "Quillan", "Queen", "Quintessa", "Quimbly", "Quaid", "Querida", "Quirin", "Qadira"]),
  ("R", ["Robert", "Rachel", "Richard", "Rebecca", "Ryan", "Ruby", "Raymond", "Rose", "Roman", "Renee", "Russell", "Riley", "Reed", "Ruth", "Rhett", "Regina", "Rowan", "Rosalie", "Reginald", "Roxanne"]),
  ("S", ["Samuel", "Sophia", "Steven", "Sarah", "Simon", "Samantha", "Sebastian", "Stella", "Scott", "Sydney", "Seth", "Savannah", "Shane", "Scarlett", "Spencer", "Sofia", "Stanley", "Serena", "Stefan", "Sienna"]),
  ("T", ["Thomas", "Taylor", "Timothy", "Tiffany", "Tyler", "Tessa", "Theodore", "Trinity", "Trevor", "Talia", "Travis", "Tara", "Tristan", "Teagan", "Tobias", "Tamara", "Tony", "Thea", "Trent", "Tatiana"]),
  ("U", ["Ulysses", "Uma", "Uriel", "Ursula", "Urban", "Unity", "Uziel", "Udele", "Upton", "Ula", "Umar", "Umi", "Usher", "Uta", "Urijah", "Ulla", "Urson", "Ulani", "Udo", "Ulyana"]),
  ("V", ["Victor", "Victoria", "Vincent", "Valerie", "Vaughn", "Vanessa", "Vernon", "Vera", "Vince", "Violet", "Virgil", "Venus", "Valentine", "Vivian", "Van", "Valentina", "Vito", "Veronica", "Vance", "Virginia"]),
  ("W", ["William", "Wendy", "Walter", "Willow", "Wesley", "Whitney", "Warren", "Willa", "Winston", "Winter", "Wade", "Waverly", "Wayne", "Wallis", "Wyatt", "Wren", "Wallace", "Winona", "Weston", "Wilhelmina"]),
  ("X", ["Xavier", "Xenia", "Xander", "Xiomara", "Xerxes", "Xyla", "Xzavier", "Xanthe", "Xavi", "Xena", "Xeno", "Ximena", "Xoan", "Xandra", "Xylon", "Xia", "Xuan", "Xaviera", "Xaden", "Xanthia"]),
  ("Y", ["Yuri", "Yasmine", "Yosef", "Yara", "Yale", "Yvonne", "Yehuda", "Yasmin", "York", "Yolanda", "Yakov", "Yuna", "Yannick", "Yvette", "Yoel", "Yana", "Youssef", "Yesenia", "Yuval", "Yuliana"]),
  ("Z", ["Zachary", "Zoe", "Zane", "Zelda", "Zeus", "Zara", "Zion", "Zara", "Zack", "Zahara", "Zeke", "Zella", "Zev", "Zinnia", "Zen", "Zendaya", "Zavier", "Zia", "Zach", "Zuri"])]

/-- The generator's private memo of previously generated lists
(`nameCache`), an association from (letter, clamped count) to names.
The Go key is the string `letter + ":" + string(rune(count))`;
`rune(count)` is injective on the counts that occur (1..100), so the
pair is a faithful key. -/
structure NameGenerator where
  nameCache : List ((String × ℕ) × List String)

def mkNameGenerator : NameGenerator := { nameCache := [] }

/-- The memo probe inside `GenerateWithContext`: a stored list is used
only when it is at least as long as the capped count (`found &&
len(cachedNames) >= count`), in which case a copied prefix of length
`count1` is answered. -/
def memoLookup (g : NameGenerator) (letter1 : String) (count1 : ℕ) :
    Option (List String) :=
  match g.nameCache.find? (fun p => p.1 = (letter1, count1)) with
  | some c => if count1 ≤ c.2.length then some (c.2.take count1) else none
  | none => none

/-- The result-draining loop of `GenerateWithContext`.  `arrivals` is
the sequence of results delivered on the batch result channel (`none`
for a value that fails the string type assertion), `ctxDone k` tells
whether the 2-second sub-context is already done when the `k`-th
arrival is examined, `i` counts names stored so far, and `names` is the
pre-allocated result slice.  Returns the names together with a flag
marking the early (context-done) return, which in Go skips the memo
update. -/
def drainLoop (count : ℕ) (ctxDone : ℕ → Bool) :
    List (Option String) → ℕ → ℕ → List String → List String × Bool
  | [], _, _, names => (names, false)
  | r :: rest, k, i, names =>
    if count ≤ i then (names, false)
    else if ctxDone k then (names.take i, true)
    else
      match r with
      | some name => drainLoop count ctxDone rest (k + 1) (i + 1) (names.set i name)
      | none => drainLoop count ctxDone rest (k + 1) i names

/-- `NameGenerator.GenerateWithContext`.  `randomLetter` stands for the
letter drawn when the request specifies none; `ctxDone` and `arrivals`
abstract the context clock and the worker-pool results.  Steps, as in
the source: nonpositive count returns empty; the letter is normalized
to the upper-cased first byte; an unknown letter returns empty; the
count is capped at the table row's length; a sufficiently long memo
entry is answered by a copied prefix; otherwise the drain loop runs and
the memo is updated unless the context-done path returned early. -/
def NameGenerator.generateWithContext (g : NameGenerator) (randomLetter : String)
    (ctxDone : ℕ → Bool) (arrivals : List (Option String))
    (letter : String) (count : ℤ) : List String × NameGenerator :=
  if count ≤ 0 then ([], g)
  else
    let letter1 := if letter = "" then randomLetter else letter.front.toUpper.toString
    match (namesByLetter.find? (fun p => p.1 = letter1)).map (·.2) with
    | none => ([], g)
    | some namesList =>
      if namesList.length = 0 then ([], g)
      else
        let count1 := min count.toNat namesList.length
        match memoLookup g letter1 count1 with
        | some result => (result, g)
        | none =>
          let r := drainLoop count1 ctxDone arrivals 0 0 (List.replicate count1 "")
          if r.2 then (r.1, g)
          else
            (r.1, { g with nameCache :=
              ((letter1, count1), r.1) ::
                g.nameCache.filter (fun p => p.1 ≠ (letter1, count1)) })

/-! ### Request pipeline (internal/server) -/

structure RequestPayload where
  sessionID : String
  letter : String
  numOfEntries : ℤ

structure ResponsePayload where
  sessionID : String
  names : List String
  numOfEntries : ℕ

inductive HandlerResult where
  | badRequest (msg : String)
  | ok (response : ResponsePayload)

/-- The request-count validation in `handleGenerateNames`:
nonpositive defaults to 1, values above 100 clamp to 100. -/
def clampNumOfEntries (n : ℤ) : ℤ :=
  if n ≤ 0 then 1 else if n > 100 then 100 else n

/-- `getCacheKey`: `fmt.Sprintf("%s:%d", letter, count)`. -/
def getCacheKey (letter : String) (count : ℤ) : String :=
  letter ++ ":" ++ toString count

/-- The body of `handleGenerateNames` after JSON decoding, for a POST
request.  `exp` is the absolute expiration instant the cache layer
computes from the default TTL.  On a cache miss the generated names —
partial or not — are unconditionally stored in the shared cache
(`s.cache.Set(cacheKey, names)`). -/
def handleGenerateNames (cache : ConcurrentLRUCache (List String)) (g : NameGenerator)
    (payload : RequestPayload) (randomLetter : String) (ctxDone : ℕ → Bool)
    (arrivals : List (Option String)) (now exp : ℤ) :
    HandlerResult × ConcurrentLRUCache (List String) × NameGenerator :=
  if payload.sessionID = "" then (.badRequest "Session ID is required", cache, g)
  else
    let count := clampNumOfEntries payload.numOfEntries
    let cacheKey := getCacheKey payload.letter count
    match cache.get cacheKey now with
    | (some cachedNames, cache1) =>
      (.ok { sessionID := payload.sessionID, names := cachedNames,
             numOfEntries := cachedNames.length }, cache1, g)
    | (none, cache1) =>
      let r := g.generateWithContext randomLetter ctxDone arrivals payload.letter count
      let cache2 := cache1.setWithExpiration cacheKey r.1 exp
      (.ok { sessionID := payload.sessionID, names := r.1,
             numOfEntries := r.1.length }, cache2, r.2)

/-- Timeout, in seconds, of the context `rateLimitMiddleware` passes to
the composite limiter's `Allow` (server.go: `context.WithTimeout(r.Context(),
2*time.Second)`). -/
def admissionTimeoutSeconds : ℕ := 2

/-- Timeout, in seconds, of the name-generation sub-context in
`handleGenerateNames`. -/
def computeTimeoutSeconds : ℕ := 2

/-- `rateLimitMiddleware`: a rejected request is answered with status
429 and a `Retry-After: 1` header; an admitted one flows to the inner
handler. -/
def rateLimitMiddleware (allowed : Bool) (innerStatus : ℕ) : ℕ × Option String :=
  if allowed then (innerStatus, none) else (429, some "1")

/-- `metricsMiddleware` wrapping the rate-limit middleware: it calls
`RecordRequest`, serves the request, then invokes the completion
closure with `nil` — regardless of whether the limiter rejected the
request.  Returns (status, Retry-After header, final collector). -/
def serveWithMetrics (m : MetricsCollector) (allowed : Bool) (innerStatus : ℕ)
    (rt : ℤ) : (ℕ × Option String) × MetricsCollector :=
  let m1 := m.recordRequest
  let resp := rateLimitMiddleware allowed innerStatus
  let m2 := m1.complete none rt
  (resp, m2)

/-! ### Concrete instances used in witnesses and counterexamples -/

/-- A token bucket that accrues half a token per second, empty, with
its last refill at instant 0. -/
def fractionBucket : TokenBucketLimiter :=
  { rate := 1/2, capacity := 10, tokens := 0, lastRefillTime := 0 }

/-- A simple stateful limiter step used to instantiate the composite
limiter in witnesses: the state is a token count, a call admits while
the count is positive and always decrements it. -/
def decLimiter : ℤ → Bool × ℤ := fun n => (decide (0 < n), n - 1)

/-- A deadline-elapsing request: the client asks for 5 names starting
with "A" against a fresh server state (cache of 5000 entries over 64
shards, as in `NewServer`), the compute context is done from the second
drained result onward, so the generator returns the partial accumulator
`["Adam"]`. -/
def partialScenarioResult :
    HandlerResult × ConcurrentLRUCache (List String) × NameGenerator :=
  handleGenerateNames (mkConcurrentLRUCache (List String) 5000 64) mkNameGenerator
    { sessionID := "s1", letter := "A", numOfEntries := 5 }
    "A" (fun k => decide (1 ≤ k))
    [some "Adam", some "Alex", some "Ava", some "Anna", some "Aaron"] 0 600

/-- A request for 100 names starting with "A" against a fresh server
state, where the context never elapses and 20 results arrive: the
generator is capped by the 20-entry table row. -/
def fullCountScenario :
    HandlerResult × ConcurrentLRUCache (List String) × NameGenerator :=
  handleGenerateNames (mkConcurrentLRUCache (List String) 5000 64) mkNameGenerator
    { sessionID := "s1", letter := "A", numOfEntries := 100 }
    "A" (fun _ => false) (List.replicate 20 (some "Adam")) 0 600

/-! ## Helper lemmas -/

lemma truncToInt_eq_floor {x : ℚ} (hx : 0 ≤ x) : truncToInt x = ⌊x⌋ := by
  rw [Rat.floor_def, truncToInt,
    ← Int.fdiv_eq_tdiv (Rat.num_nonneg.2 hx) (by positivity),
    Int.fdiv_eq_ediv _ (by positivity)]

lemma dropWhile_lt_lower_bound (c : ℤ) :
    ∀ l : List ℤ, l.Sorted (· ≤ ·) → ∀ x ∈ l.dropWhile (fun ts => ts < c), c ≤ x := by
  intro l
  induction l with
  | nil => intro _ x hx; simp at hx
  | cons a t ih =>
    intro hs x hx
    rw [List.sorted_cons] at hs
    rw [List.dropWhile_cons] at hx
    by_cases hac : a < c
    · rw [if_pos (decide_eq_true hac)] at hx
      exact ih hs.2 x hx
    · rw [if_neg (by simpa using hac)] at hx
      rcases List.mem_cons.1 hx with rfl | hx
      · omega
      · exact le_trans (by omega) (hs.1 x hx)

/-- Evaluation rule for `refill` when the truncated accrual vanishes. -/
lemma refill_eval_zero (l : TokenBucketLimiter) (now : ℚ)
    (h : truncToInt ((now - l.lastRefillTime) * l.rate) = 0) :
    l.refill now = { l with lastRefillTime := now } := by
  unfold TokenBucketLimiter.refill
  simp only [h]
  norm_num

/-! ## Claim C3: token-bucket refill -/

/-- C3 counterexample: with rate ½ token/s, an empty bucket of capacity
10 and two consecutive refills one second apart, the code leaves the
bucket at 0 tokens, while the claimed formula
`tokens = min(capacity, tokens + elapsed × rate)` would yield ½ after
the first call, and exactly one accrued token over the two calls
combined.  `int64(elapsed * rate)` truncates the fraction and
`lastRefillTime` is reset unconditionally, so the fraction is lost. -/
theorem tokenBucket_refill_drops_fraction :
    (fractionBucket.refill 1).tokens = 0 ∧
    ((fractionBucket.refill 1).tokens : ℚ) ≠
      min (fractionBucket.capacity : ℚ)
        ((fractionBucket.tokens : ℚ) +
          (1 - fractionBucket.lastRefillTime) * fractionBucket.rate) ∧
    ((fractionBucket.refill 1).refill 2).tokens = 0 ∧
    (((fractionBucket.refill 1).refill 2).tokens : ℚ) ≠
      min (fractionBucket.capacity : ℚ)
        ((fractionBucket.tokens : ℚ) +
          (2 - fractionBucket.lastRefillTime) * fractionBucket.rate) := by
  have h1 : truncToInt (((1:ℚ) - fractionBucket.lastRefillTime) * fractionBucket.rate) = 0 := by
    rw [truncToInt_eq_floor (by norm_num [fractionBucket])]
    norm_num [fractionBucket]
  have hb1 : fractionBucket.refill 1 =
      { rate := 1/2, capacity := 10, tokens := 0, lastRefillTime := 1 } := by
    rw [refill_eval_zero _ _ h1]
    rfl
  have h2 : truncToInt (((2:ℚ) -
      ({ rate := 1/2, capacity := 10, tokens := 0, lastRefillTime := 1 } :
        TokenBucketLimiter).lastRefillTime) *
      ({ rate := 1/2, capacity := 10, tokens := 0, lastRefillTime := 1 } :
        TokenBucketLimiter).rate) = 0 := by
    rw [truncToInt_eq_floor (by norm_num)]
    norm_num
  have hb2 : (fractionBucket.refill 1).refill 2 =
      { rate := 1/2, capacity := 10, tokens := 0, lastRefillTime := 2 } := by
    rw [hb1, refill_eval_zero _ _ h2]
  refine ⟨by rw [hb1], ?_, by rw [hb2], ?_⟩
  · rw [hb1]
    simp only [fractionBucket]
    rw [min_eq_right (by norm_num)]
    norm_num
  · rw [hb2]
    simp only [fractionBucket]
    rw [min_eq_right (by norm_num)]
    norm_num

/-- C3 amended: on every refill the bucket gains
`int64(elapsed × rate)` tokens — the accrued amount truncated toward
zero — clamped to capacity when that truncation is positive, and gains
nothing otherwise; `lastRefillTime` is reset unconditionally either
way, so the fractional remainder of `elapsed × rate` is discarded
rather than carried over.  The bucket-range invariant
`0 ≤ tokens ≤ capacity` is preserved by `refill` and by `TryAllow`. -/
theorem tokenBucket_refill_truncates (l : TokenBucketLimiter) (now : ℚ)
    (h0 : 0 ≤ l.tokens) (hcap : l.tokens ≤ l.capacity) :
    ((l.refill now).lastRefillTime = now) ∧
    ((l.refill now).tokens =
      if 0 < truncToInt ((now - l.lastRefillTime) * l.rate) then
        min l.capacity (l.tokens + truncToInt ((now - l.lastRefillTime) * l.rate))
      else l.tokens) ∧
    (0 ≤ (l.refill now).tokens ∧ (l.refill now).tokens ≤ l.capacity) ∧
    (0 ≤ (l.tryAllow now).2.tokens ∧ (l.tryAllow now).2.tokens ≤ l.capacity) := by
  have hmain : (l.refill now).lastRefillTime = now ∧
      ((l.refill now).tokens =
        if 0 < truncToInt ((now - l.lastRefillTime) * l.rate) then
          min l.capacity (l.tokens + truncToInt ((now - l.lastRefillTime) * l.rate))
        else l.tokens) := by
    unfold TokenBucketLimiter.refill
    by_cases hpos : 0 < truncToInt ((now - l.lastRefillTime) * l.rate)
    · simp [hpos]
    · simp [hpos]
  have hbounds : 0 ≤ (l.refill now).tokens ∧ (l.refill now).tokens ≤ l.capacity := by
    rw [hmain.2]
    by_cases hpos : 0 < truncToInt ((now - l.lastRefillTime) * l.rate)
    · simp only [hpos, if_true]
      constructor
      · exact le_min (le_trans h0 hcap) (by omega)
      · exact min_le_left _ _
    · simp only [hpos, if_false]
      exact ⟨h0, hcap⟩
  refine ⟨hmain.1, hmain.2, hbounds, ?_⟩
  unfold TokenBucketLimiter.tryAllow
  by_cases htok : (l.refill now).tokens > 0
  · simp only [htok, if_true]
    exact ⟨by omega, by have := hbounds.2; omega⟩
  · simp only [htok, if_false]
    exact hbounds

/-- C3 amended, witness: the amended refill theorem evaluated on a
concrete bucket. -/
theorem tokenBucket_refill_truncates_witness :
    (({ rate := 1, capacity := 5, tokens := 3, lastRefillTime := 0 } :
        TokenBucketLimiter).refill 2).lastRefillTime = 2 ∧
    0 ≤ (({ rate := 1, capacity := 5, tokens := 3, lastRefillTime := 0 } :
        TokenBucketLimiter).tryAllow 2).2.tokens :=
  ⟨(tokenBucket_refill_truncates _ 2 (by decide) (by decide)).1,
   (tokenBucket_refill_truncates _ 2 (by decide) (by decide)).2.2.2.1⟩

/-! ## Claim C4: sliding-window prune interval -/

/-- C4 counterexample: Go's `Before` comparison is strict, so a
timestamp lying exactly at `now − windowDuration` is retained by the
prune step — the claim's half-open interval `(t − window, t]`, which
excludes that boundary point, is violated at this input. -/
theorem slidingWindow_prune_keeps_boundary :
    ((({ maxRequests := 5, windowDuration := 10, requests := [0] } :
        SlidingWindowLimiter).pruneExpiredRequests 10).requests = [0]) ∧
      (0 : ℤ) ∈ (({ maxRequests := 5, windowDuration := 10, requests := [0] } :
        SlidingWindowLimiter).pruneExpiredRequests 10).requests ∧
      ¬ ((10 : ℤ) - 10 < 0) := by
  exact ⟨by decide, by decide, by decide⟩

/-- C4 amended: after prune at time `t` every retained timestamp lies
in the closed interval `[t − window_duration, t]` (only timestamps
strictly older than `t − window_duration` are removed), and `TryAllow`
keeps the stored sequence within `max_requests` entries, sorted, and
bounded by the current instant. -/
theorem slidingWindow_invariants (l : SlidingWindowLimiter) (now : ℤ)
    (hsort : l.requests.Sorted (· ≤ ·))
    (hpast : ∀ ts ∈ l.requests, ts ≤ now)
    (hlen : (l.requests.length : ℤ) ≤ l.maxRequests) :
    (∀ ts ∈ (l.pruneExpiredRequests now).requests,
        now - l.windowDuration ≤ ts ∧ ts ≤ now) ∧
    (((l.tryAllow now).2.requests.length : ℤ) ≤ l.maxRequests) ∧
    ((l.tryAllow now).2.requests.Sorted (· ≤ ·)) ∧
    (∀ ts ∈ (l.tryAllow now).2.requests, ts ≤ now) := by
  have hsub : (l.pruneExpiredRequests now).requests.Sublist l.requests :=
    List.dropWhile_sublist _
  have hmem : ∀ ts ∈ (l.pruneExpiredRequests now).requests, ts ∈ l.requests :=
    fun ts hts => hsub.mem hts
  have hwindow : ∀ ts ∈ (l.pruneExpiredRequests now).requests,
      now - l.windowDuration ≤ ts ∧ ts ≤ now := by
    intro ts hts
    exact ⟨dropWhile_lt_lower_bound _ _ hsort ts hts, hpast ts (hmem ts hts)⟩
  have hsort1 : (l.pruneExpiredRequests now).requests.Sorted (· ≤ ·) :=
    hsort.sublist hsub
  have hlen1 : (l.pruneExpiredRequests now).requests.length ≤ l.requests.length :=
    hsub.length_le
  refine ⟨hwindow, ?_, ?_, ?_⟩
  · unfold SlidingWindowLimiter.tryAllow
    by_cases hroom :
        ((l.pruneExpiredRequests now).requests.length : ℤ) <
          (l.pruneExpiredRequests now).maxRequests
    · simp only [hroom, if_true, List.length_append, List.length_cons, List.length_nil]
      have : (l.pruneExpiredRequests now).maxRequests = l.maxRequests := rfl
      rw [this] at hroom
      push_cast
      omega
    · simp only [hroom, if_false]
      have : (l.pruneExpiredRequests now).requests.length ≤ l.requests.length := hlen1
      omega
  · unfold SlidingWindowLimiter.tryAllow
    by_cases hroom :
        ((l.pruneExpiredRequests now).requests.length : ℤ) <
          (l.pruneExpiredRequests now).maxRequests
    · simp only [hroom, if_true]
      rw [List.Sorted, List.pairwise_append]
      refine ⟨hsort1, by simp, ?_⟩
      intro a ha b hb
      simp only [List.mem_singleton] at hb
      subst hb
      exact hpast a (hmem a ha)
    · simp only [hroom, if_false]
      exact hsort1
  · unfold SlidingWindowLimiter.tryAllow
    by_cases hroom :
        ((l.pruneExpiredRequests now).requests.length : ℤ) <
          (l.pruneExpiredRequests now).maxRequests
    · simp only [hroom, if_true]
      intro ts hts
      rcases List.mem_append.1 hts with h | h
      · exact hpast ts (hmem ts h)
      · simp only [List.mem_singleton] at h; omega
    · simp only [hroom, if_false]
      intro ts hts
      exact hpast ts (hmem ts hts)

/-- C4 amended, witness: the invariant theorem applied to a concrete
window. -/
theorem slidingWindow_invariants_witness :
    (∀ ts ∈ (({ maxRequests := 2, windowDuration := 10, requests := [3, 7] } :
        SlidingWindowLimiter).pruneExpiredRequests 12).requests,
      (12 : ℤ) - 10 ≤ ts ∧ ts ≤ 12) ∧
    ((({ maxRequests := 2, windowDuration := 10, requests := [3, 7] } :
        SlidingWindowLimiter).tryAllow 12).2.requests.length : ℤ) ≤ 2 :=
  ⟨(slidingWindow_invariants _ 12 (by decide) (by decide) (by decide)).1,
   (slidingWindow_invariants _ 12 (by decide) (by decide) (by decide)).2.1⟩

/-! ## Claim C8: composite limiter -/

/-- C8: the composite limiter admits a call iff every constituent
limiter admits it — each constituent owns its own state, so its
verdict for this call is its `TryAllow` applied to its current state —
the resulting states are exactly each constituent's stepped state when
all admit, and on a rejection the loop returns `false` immediately,
leaving every later limiter's state untouched. -/
theorem composite_admits_iff {L : Type} (f : L → Bool × L) (ls : List L)
    (l : L) (rest : List L) :
    ((compositeTryAllow f ls).1 = true ↔ ∀ x ∈ ls, (f x).1 = true) ∧
    ((compositeTryAllow f ls).1 = true →
      (compositeTryAllow f ls).2 = ls.map (fun x => (f x).2)) ∧
    ((f l).1 = false → compositeTryAllow f (l :: rest) = (false, (f l).2 :: rest)) := by
  have hiff : ∀ ms : List L,
      ((compositeTryAllow f ms).1 = true ↔ ∀ x ∈ ms, (f x).1 = true) ∧
      ((compositeTryAllow f ms).1 = true →
        (compositeTryAllow f ms).2 = ms.map (fun x => (f x).2)) := by
    intro ms
    induction ms with
    | nil => simp [compositeTryAllow]
    | cons a t ih =>
      rcases hfa : f a with ⟨b, a1⟩
      cases b
      · constructor
        · simp only [compositeTryAllow, hfa]
          constructor
          · intro h; exact absurd h (by simp)
          · intro h
            have := h a (by simp)
            rw [hfa] at this
            exact absurd this (by simp)
        · intro h
          simp only [compositeTryAllow, hfa] at h
          exact absurd h (by simp)
      · constructor
        · simp only [compositeTryAllow, hfa]
          constructor
          · intro h x hx
            rcases List.mem_cons.1 hx with rfl | hx
            · rw [hfa]
            · exact (ih.1.1 h) x hx
          · intro h
            exact ih.1.2 fun x hx => h x (List.mem_cons_of_mem _ hx)
        · intro h
          simp only [compositeTryAllow, hfa] at h ⊢
          rw [List.map_cons, ih.2 h, hfa]
  refine ⟨(hiff ls).1, (hiff ls).2, ?_⟩
  intro hfl
  rcases hf : f l with ⟨b, l1⟩
  rw [hf] at hfl
  simp only at hfl
  subst hfl
  simp only [compositeTryAllow, hf]

/-- C8 witness: the composite theorem evaluated on two concrete
two-limiter stacks — one where the first limiter rejects (the second's
state is untouched), one where every limiter admits. -/
theorem composite_admits_iff_witness :
    compositeTryAllow decLimiter [(0:ℤ), 5] = (false, [-1, 5]) ∧
    (compositeTryAllow decLimiter [(2:ℤ), 5]).1 = true := by
  constructor
  · have h := (composite_admits_iff decLimiter [] (0:ℤ) [5]).2.2 (by decide)
    rw [h]
    decide
  · exact (composite_admits_iff decLimiter [(2:ℤ), 5] 0 []).1.2 (by decide)

/-! ## Claim C5: admission middleware -/

/-- C5 counterexample: the context handed to the composite limiter's
`Allow` carries a 2-second timeout, not 1 second, and a rejected
request's measurement is completed by the metrics middleware with
`done(nil)` — the success marker — not a failure marker: starting from
a fresh collector, one rejected request leaves
`requests_succeeded = 1` and `requests_failed = 0`. -/
theorem admission_timeout_marker_counterexample :
    admissionTimeoutSeconds ≠ 1 ∧
    (serveWithMetrics MetricsCollector.initial false 200 5).2.requestsFailed = 0 ∧
    (serveWithMetrics MetricsCollector.initial false 200 5).2.requestsSucceeded = 1 := by
  refine ⟨by decide, by decide, by decide⟩

/-- C5 amended: the admission middleware consults the composite
limiter under a 2-second context (the same bound as the compute step);
on rejection the response is status 429 with a `Retry-After: 1` hint,
and the surrounding metrics middleware completes the measurement with
`done(nil)`, so the request counts as a success, the failure counter is
untouched, and the concurrency gauge returns to its prior value. -/
theorem admission_rejection_behavior (m : MetricsCollector) (innerStatus : ℕ) (rt : ℤ) :
    admissionTimeoutSeconds = 2 ∧ computeTimeoutSeconds = 2 ∧
    (serveWithMetrics m false innerStatus rt).1 = (429, some "1") ∧
    (serveWithMetrics m false innerStatus rt).2.requestsTotal = m.requestsTotal + 1 ∧
    (serveWithMetrics m false innerStatus rt).2.requestsSucceeded = m.requestsSucceeded + 1 ∧
    (serveWithMetrics m false innerStatus rt).2.requestsFailed = m.requestsFailed ∧
    (serveWithMetrics m false innerStatus rt).2.currentConcurrent = m.currentConcurrent := by
  refine ⟨rfl, rfl, rfl, rfl, rfl, rfl, ?_⟩
  simp [serveWithMetrics, rateLimitMiddleware, MetricsCollector.recordRequest,
    MetricsCollector.complete]

/-! ## Claim C6: completion callback is not idempotent -/

/-- C6: the completion closure has no one-shot guard, so invoking it a
second time corrupts the counters: after one `RecordRequest` whose
callback is invoked twice with `nil`, the concurrency gauge reads −1
instead of 0 and `requests_succeeded` reads 2 while `requests_total`
is 1 — the second invocation does not leave the counters as they were
after the first. -/
theorem metrics_complete_not_idempotent :
    ((MetricsCollector.initial.recordRequest.complete none 5).currentConcurrent = 0 ∧
      (MetricsCollector.initial.recordRequest.complete none 5).requestsSucceeded = 1 ∧
      (MetricsCollector.initial.recordRequest.complete none 5).requestsTotal = 1) ∧
    (((MetricsCollector.initial.recordRequest.complete none 5).complete none 5).currentConcurrent
        = -1 ∧
      ((MetricsCollector.initial.recordRequest.complete none 5).complete none 5).requestsSucceeded
        = 2 ∧
      ((MetricsCollector.initial.recordRequest.complete none 5).complete none 5).requestsTotal
        = 1) := by
  exact ⟨⟨by decide, by decide, by decide⟩, ⟨by decide, by decide, by decide⟩⟩

/-! ## Claim C7: metrics accounting -/

lemma countFinishes_split : ∀ tr : List MetricsEvent,
    countFinishes tr = (tr.filter isSuccessFinish).length + (tr.filter isFailureFinish).length := by
  intro tr
  induction tr with
  | nil => simp [countFinishes]
  | cons e t ih =>
    rcases e with _ | ⟨err, rt⟩
    · simpa [countFinishes, isFinish, isSuccessFinish, isFailureFinish, List.filter] using ih
    · rcases err with _ | s <;>
        · simp [countFinishes, isFinish, isSuccessFinish, isFailureFinish, List.filter] at ih ⊢
          omega

lemma foldl_metrics_counts : ∀ (tr : List MetricsEvent) (m : MetricsCollector),
    (tr.foldl metricsStep m).requestsTotal = m.requestsTotal + countStarts tr ∧
    (tr.foldl metricsStep m).requestsSucceeded
      = m.requestsSucceeded + (tr.filter isSuccessFinish).length ∧
    (tr.foldl metricsStep m).requestsFailed
      = m.requestsFailed + (tr.filter isFailureFinish).length ∧
    (tr.foldl metricsStep m).currentConcurrent
      = m.currentConcurrent + (countStarts tr : ℤ) - (countFinishes tr : ℤ) := by
  intro tr
  induction tr with
  | nil =>
    intro m
    simp [countStarts, countFinishes]
  | cons e t ih =>
    intro m
    rw [List.foldl_cons]
    rcases e with _ | ⟨err, rt⟩
    · rcases ih (metricsStep m .start) with ⟨h1, h2, h3, h4⟩
      refine ⟨?_, ?_, ?_, ?_⟩ <;>
        · simp only [h1, h2, h3, h4, metricsStep, MetricsCollector.recordRequest,
            countStarts, countFinishes, isStart, isFinish, isSuccessFinish, isFailureFinish,
            List.filter, List.length_cons] at *
          try push_cast
          try omega
    · rcases ih (metricsStep m (.finish err rt)) with ⟨h1, h2, h3, h4⟩
      rcases err with _ | s <;>
        · refine ⟨?_, ?_, ?_, ?_⟩ <;>
            · simp only [h1, h2, h3, h4, metricsStep, MetricsCollector.complete,
                countStarts, countFinishes, isStart, isFinish, isSuccessFinish, isFailureFinish,
                List.filter, List.length_cons] at *
              try push_cast
              try omega

/-- C7: over any event sequence whose completion callbacks fire at
most once overall (no more finishes than starts), the collector
satisfies `requests_total = requests_succeeded + requests_failed +
in-flight`, the concurrency gauge equals the number of begun-but-not-
finished requests, and each callback invocation decrements the gauge
back to its pre-request value. -/
theorem metrics_accounting (tr : List MetricsEvent)
    (hvalid : countFinishes tr ≤ countStarts tr) :
    ((runMetrics tr).requestsTotal =
      (runMetrics tr).requestsSucceeded + (runMetrics tr).requestsFailed +
        (countStarts tr - countFinishes tr)) ∧
    ((runMetrics tr).currentConcurrent = (countStarts tr : ℤ) - (countFinishes tr : ℤ)) ∧
    (∀ (m : MetricsCollector) (err : Option String) (rt : ℤ),
      (m.recordRequest.complete err rt).currentConcurrent = m.currentConcurrent) := by
  rcases foldl_metrics_counts tr MetricsCollector.initial with ⟨h1, h2, h3, h4⟩
  have hsplit := countFinishes_split tr
  have e1 : MetricsCollector.initial.requestsTotal = 0 := rfl
  have e2 : MetricsCollector.initial.requestsSucceeded = 0 := rfl
  have e3 : MetricsCollector.initial.requestsFailed = 0 := rfl
  have e4 : MetricsCollector.initial.currentConcurrent = 0 := rfl
  rw [e1] at h1
  rw [e2] at h2
  rw [e3] at h3
  rw [e4] at h4
  refine ⟨?_, ?_, ?_⟩
  · simp only [runMetrics]
    omega
  · simp only [runMetrics]
    omega
  · intro m err rt
    rcases err with _ | s <;>
      simp [MetricsCollector.recordRequest, MetricsCollector.complete]

/-- C7 witness: the accounting theorem evaluated on the concrete trace
"two requests begin, the first completes successfully". -/
theorem metrics_accounting_witness :
    (runMetrics [.start, .start, .finish none 3]).requestsTotal =
      (runMetrics [.start, .start, .finish none 3]).requestsSucceeded +
      (runMetrics [.start, .start, .finish none 3]).requestsFailed +
      (countStarts [.start, .start, .finish none 3] -
        countFinishes [.start, .start, .finish none 3]) :=
  (metrics_accounting _ (by decide)).1

/-! ## Claim C9: percentile computation -/

lemma percentile_idx_nonneg (n : ℕ) (p : ℚ) (hn : 1 ≤ n) (h0 : 0 ≤ p) :
    (0 : ℚ) ≤ ((n : ℤ) - 1 : ℤ) * p / 100 := by
  apply div_nonneg _ (by norm_num)
  apply mul_nonneg _ h0
  have : (1 : ℚ) ≤ (n : ℚ) := by exact_mod_cast hn
  push_cast
  linarith

lemma percentile_idx_le (n : ℕ) (p : ℚ) (hn : 1 ≤ n) (h0 : 0 ≤ p) (h100 : p ≤ 100) :
    (truncToInt (((n : ℤ) - 1 : ℤ) * p / 100)).toNat ≤ n - 1 := by
  rw [truncToInt_eq_floor (percentile_idx_nonneg n p hn h0)]
  have harg : (((n : ℤ) - 1 : ℤ) : ℚ) * p / 100 ≤ (((n : ℤ) - 1 : ℤ) : ℚ) := by
    have hnn : (0 : ℚ) ≤ (((n : ℤ) - 1 : ℤ) : ℚ) := by
      have : (1 : ℚ) ≤ (n : ℚ) := by exact_mod_cast hn
      push_cast
      linarith
    calc (((n : ℤ) - 1 : ℤ) : ℚ) * p / 100
        ≤ (((n : ℤ) - 1 : ℤ) : ℚ) * 100 / 100 := by gcongr
      _ = (((n : ℤ) - 1 : ℤ) : ℚ) := by ring
  have := Int.floor_le_floor (α := ℚ) harg
  rw [Int.floor_intCast] at this
  omega

lemma getPercentile_mono (times : List ℤ) (p q : ℚ)
    (h0 : 0 ≤ p) (hpq : p ≤ q) (h100 : q ≤ 100) :
    getPercentile times p ≤ getPercentile times q := by
  unfold getPercentile
  by_cases hn : times.length = 0
  · simp [hn]
  · simp only [hn, if_false]
    have hn1 : 1 ≤ times.length := Nat.one_le_iff_ne_zero.2 hn
    have hq0 : 0 ≤ q := le_trans h0 hpq
    have hp100 : p ≤ 100 := le_trans hpq h100
    set s := times.insertionSort (· ≤ ·) with hs
    have hslen : s.length = times.length := List.length_insertionSort _ _
    have hip := percentile_idx_le times.length p hn1 h0 hp100
    have hiq := percentile_idx_le times.length q hn1 hq0 h100
    have hmono : (truncToInt (((times.length : ℤ) - 1 : ℤ) * p / 100)).toNat ≤
        (truncToInt (((times.length : ℤ) - 1 : ℤ) * q / 100)).toNat := by
      apply Int.toNat_le_toNat
      rw [truncToInt_eq_floor (percentile_idx_nonneg _ _ hn1 h0),
        truncToInt_eq_floor (percentile_idx_nonneg _ _ hn1 hq0)]
      apply Int.floor_le_floor
      have hnn : (0 : ℚ) ≤ (((times.length : ℤ) - 1 : ℤ) : ℚ) := by
        have : (1 : ℚ) ≤ (times.length : ℚ) := by exact_mod_cast hn1
        push_cast
        linarith
      gcongr
    have hipb : (truncToInt (((times.length : ℤ) - 1 : ℤ) * p / 100)).toNat < s.length := by
      rw [hslen]; omega
    have hiqb : (truncToInt (((times.length : ℤ) - 1 : ℤ) * q / 100)).toNat < s.length := by
      rw [hslen]; omega
    rw [List.getD_eq_getElem s 0 hipb, List.getD_eq_getElem s 0 hiqb]
    have hsorted : s.Sorted (· ≤ ·) := List.sorted_insertionSort _ _
    have := hsorted.rel_get_of_le (a := ⟨_, hipb⟩) (b := ⟨_, hiqb⟩) (by exact hmono)
    simpa [List.get_eq_getElem] using this

/-- C9: percentiles are computed on a sorted-ascending copy of the
sample ring — for every sorted permutation `s` of the samples the
result is `s`'s element at index `⌊(n−1) × p/100⌋` — an empty ring
yields zero, any returned percentile is one of the samples, the result
is monotone in the percentile argument, and consequently
p50 ≤ p90 ≤ p99 on any ring. -/
theorem percentile_sorted_copy (times : List ℤ) (p q : ℚ)
    (h0 : 0 ≤ p) (hpq : p ≤ q) (h100 : q ≤ 100) :
    (getPercentile [] p = 0) ∧
    (getPercentile times p ≤ getPercentile times q) ∧
    (times ≠ [] → getPercentile times p ∈ times) ∧
    (getPercentile times 50 ≤ getPercentile times 90 ∧
      getPercentile times 90 ≤ getPercentile times 99) ∧
    (∀ s : List ℤ, s.Perm times → s.Sorted (· ≤ ·) →
      getPercentile times p =
        s.getD (⌊((times.length : ℤ) - 1 : ℤ) * p / 100⌋).toNat 0) := by
  have hp100 : p ≤ 100 := le_trans hpq h100
  refine ⟨by simp [getPercentile], getPercentile_mono times p q h0 hpq h100, ?_, ?_, ?_⟩
  · intro hne
    have hn1 : 1 ≤ times.length := by
      cases times with
      | nil => exact absurd rfl hne
      | cons a t => simp
    unfold getPercentile
    have hn : ¬ times.length = 0 := by omega
    simp only [hn, if_false]
    have hslen : (times.insertionSort (· ≤ ·)).length = times.length :=
      List.length_insertionSort _ _
    have hib := percentile_idx_le times.length p hn1 h0 hp100
    have hb : (truncToInt (((times.length : ℤ) - 1 : ℤ) * p / 100)).toNat <
        (times.insertionSort (· ≤ ·)).length := by
      rw [hslen]; omega
    rw [List.getD_eq_getElem _ 0 hb]
    exact (List.perm_insertionSort (· ≤ ·) times).mem_iff.1 (List.getElem_mem hb)
  · constructor
    · exact getPercentile_mono times 50 90 (by norm_num) (by norm_num) (by norm_num)
    · exact getPercentile_mono times 90 99 (by norm_num) (by norm_num) (by norm_num)
  · intro s hperm hsorted
    have hseq : s = times.insertionSort (· ≤ ·) := by
      apply List.eq_of_perm_of_sorted
        (hperm.trans (List.perm_insertionSort (· ≤ ·) times).symm) hsorted
      exact List.sorted_insertionSort _ _
    subst hseq
    unfold getPercentile
    by_cases hn : times.length = 0
    · have : times = [] := List.length_eq_zero.1 hn
      subst this
      simp
    · simp only [hn, if_false]
      rw [truncToInt_eq_floor
        (percentile_idx_nonneg times.length p (Nat.one_le_iff_ne_zero.2 hn) h0)]

/-- C9 witness: the percentile theorem evaluated on a concrete ring of
three samples at percentiles 50 and 90. -/
theorem percentile_sorted_copy_witness :
    getPercentile [5, 1, 3] 50 ≤ getPercentile [5, 1, 3] 90 ∧
    getPercentile ([] : List ℤ) 50 = 0 :=
  ⟨(percentile_sorted_copy [5, 1, 3] 50 90 (by norm_num) (by norm_num) (by norm_num)).2.1,
   (percentile_sorted_copy [] 50 90 (by norm_num) (by norm_num) (by norm_num)).1⟩

/-! ## Claim C2: LRU shard invariants -/

lemma take_append_take {α : Type} (a b : List α) (n : ℕ) :
    (a ++ b.take n).take n = (a ++ b).take n := by
  rw [List.take_append_eq_append_take, List.take_append_eq_append_take, List.take_take]
  congr 1
  congr 1
  exact inf_eq_left.2 (Nat.sub_le n a.length)

lemma lruSet_capacity {V : Type} (c : LRUCache V) (key : String) (v : V) (exp : ℤ) :
    (c.setWithExpiration key v exp).capacity = c.capacity := by
  unfold LRUCache.setWithExpiration
  dsimp only
  split
  · rfl
  · split <;> rfl

lemma lruSet_keys_new {V : Type} (c : LRUCache V) (k : String) (v : V) (e : ℤ)
    (hk : k ∉ lruKeys c) (hlen : c.entries.length ≤ c.capacity) :
    lruKeys (c.setWithExpiration k v e) = (k :: lruKeys c).take c.capacity ∧
    (c.setWithExpiration k v e).entries.length ≤ c.capacity := by
  have hany : ¬ ((c.entries.any fun p => decide (p.1 = k)) = true) := by
    intro h
    rcases List.any_eq_true.1 h with ⟨x, hx, hxk⟩
    exact hk (by
      simp only [lruKeys, List.mem_map]
      exact ⟨x, hx, by simpa using hxk⟩)
  unfold LRUCache.setWithExpiration
  dsimp only
  rw [if_neg hany]
  by_cases hover : ((k, v, e) :: c.entries).length > c.capacity
  · rw [if_pos hover]
    simp only [List.length_cons] at hover
    have hfull : c.entries.length = c.capacity := by omega
    constructor
    · have h1 : ((k, v, e) :: c.entries).dropLast =
          ((k, v, e) :: c.entries).take c.capacity := by
        rw [List.dropLast_eq_take, List.length_cons, Nat.add_sub_cancel, hfull]
      simp only [lruKeys, h1, List.map_take, List.map_cons]
    · simp only [List.length_dropLast, List.length_cons]
      omega
  · rw [if_neg hover]
    simp only [List.length_cons] at hover
    constructor
    · simp only [lruKeys, List.map_cons]
      rw [List.take_of_length_le (by simp only [List.length_cons, List.length_map]; omega)]
    · simp only [List.length_cons]
      omega

lemma lruSet_length_le {V : Type} (c : LRUCache V) (key : String) (v : V) (exp : ℤ)
    (h : c.entries.length ≤ c.capacity) :
    (c.setWithExpiration key v exp).entries.length ≤ c.capacity := by
  by_cases hk : key ∈ lruKeys c
  · unfold LRUCache.setWithExpiration
    dsimp only
    rw [if_pos]
    · have hlt : (c.entries.filter fun p => p.1 ≠ key).length < c.entries.length := by
        rw [List.length_filter_lt_length_iff_exists]
        rcases List.mem_map.1 hk with ⟨x, hx, hxk⟩
        exact ⟨x, hx, by simp [hxk]⟩
      simp only [List.length_cons]
      omega
    · rcases List.mem_map.1 hk with ⟨x, hx, hxk⟩
      exact List.any_eq_true.2 ⟨x, hx, by simpa using hxk⟩
  · exact (lruSet_keys_new c key v exp hk h).2

lemma lruGet_length_le {V : Type} (c : LRUCache V) (key : String) (now : ℤ)
    (h : c.entries.length ≤ c.capacity) :
    (c.get key now).2.entries.length ≤ c.capacity := by
  unfold LRUCache.get
  cases hf : c.entries.find? (fun p => p.1 = key) with
  | none => exact h
  | some x =>
    obtain ⟨k1, v1, e1⟩ := x
    have hmem : (k1, v1, e1) ∈ c.entries := List.mem_of_find?_eq_some hf
    have hk1 : k1 = key := by simpa using List.find?_some hf
    have hlt : (c.entries.filter fun p => p.1 ≠ key).length < c.entries.length := by
      rw [List.length_filter_lt_length_iff_exists]
      exact ⟨(k1, v1, e1), hmem, by simp [hk1]⟩
    dsimp only
    by_cases hexp : e1 > 0 ∧ now > e1
    · rw [if_pos hexp]
      dsimp only
      have := List.length_filter_le (fun p => decide (p.1 ≠ key)) c.entries
      omega
    · rw [if_neg hexp]
      dsimp only
      simp only [List.length_cons]
      omega

lemma lruSet_evicts_tail {V : Type} (c : LRUCache V) (key : String) (v : V) (exp : ℤ)
    (hk : key ∉ lruKeys c) (hfull : c.entries.length = c.capacity) (hpos : 0 < c.capacity) :
    (c.setWithExpiration key v exp).entries = (key, v, exp) :: c.entries.dropLast := by
  have hany : ¬ ((c.entries.any fun p => decide (p.1 = key)) = true) := by
    intro h
    rcases List.any_eq_true.1 h with ⟨x, hx, hxk⟩
    exact hk (by
      simp only [lruKeys, List.mem_map]
      exact ⟨x, hx, by simpa using hxk⟩)
  unfold LRUCache.setWithExpiration
  dsimp only
  rw [if_neg hany, if_pos (by simp only [List.length_cons]; omega)]
  rw [List.dropLast_cons_of_ne_nil]
  intro hnil
  rw [hnil] at hfull
  simp at hfull
  omega

lemma lruGet_promotes {V : Type} (c : LRUCache V) (key : String) (now : ℤ) (v : V)
    (hhit : (c.get key now).1 = some v) :
    ∃ e, (c.get key now).2.entries =
      (key, v, e) :: c.entries.filter (fun p => p.1 ≠ key) := by
  unfold LRUCache.get at hhit ⊢
  cases hf : c.entries.find? (fun p => p.1 = key) with
  | none => rw [hf] at hhit; simp at hhit
  | some x =>
    obtain ⟨k1, v1, e1⟩ := x
    rw [hf] at hhit
    dsimp only at hhit ⊢
    by_cases hexp : e1 > 0 ∧ now > e1
    · rw [if_pos hexp] at hhit
      simp at hhit
    · rw [if_neg hexp] at hhit ⊢
      dsimp only at hhit
      obtain rfl : v1 = v := by simpa using hhit
      exact ⟨e1, rfl⟩

lemma lruInsertAll_keys {V : Type} : ∀ (kvs : List (String × V × ℤ)) (c : LRUCache V),
    ((kvs.map (·.1)).reverse ++ lruKeys c).Nodup →
    c.entries.length ≤ c.capacity →
    lruKeys (lruInsertAll c kvs) = ((kvs.map (·.1)).reverse ++ lruKeys c).take c.capacity := by
  intro kvs
  induction kvs with
  | nil =>
    intro c _ hlen
    have : lruKeys c = (lruKeys c).take c.capacity := by
      rw [List.take_of_length_le]
      simpa [lruKeys] using hlen
    simpa [lruInsertAll] using this
  | cons kv rest ih =>
    intro c hnodup hlen
    obtain ⟨k, v, e⟩ := kv
    have hshape : ((((k, v, e) :: rest).map (·.1)).reverse ++ lruKeys c) =
        (rest.map (·.1)).reverse ++ (k :: lruKeys c) := by
      simp
    rw [hshape] at hnodup
    have hk : k ∉ lruKeys c := by
      rcases (List.nodup_append.1 hnodup) with ⟨_, hkeys, _⟩
      exact (List.nodup_cons.1 hkeys).1
    have hset := lruSet_keys_new c k v e hk hlen
    have hcap := lruSet_capacity c k v e
    have hnodup2 : ((rest.map (·.1)).reverse ++ lruKeys (c.setWithExpiration k v e)).Nodup := by
      rw [hset.1]
      exact hnodup.sublist ((List.take_sublist _ _).append_left _)
    have hstep : lruInsertAll c ((k, v, e) :: rest) =
        lruInsertAll (c.setWithExpiration k v e) rest := by
      simp [lruInsertAll]
    rw [hstep, ih (c.setWithExpiration k v e) hnodup2 (by rw [hcap]; exact hset.2)]
    rw [hcap, hset.1, take_append_take, hshape]

/-- C2: the shard never exceeds its capacity under `SetWithExpiration`
and `Get`; inserting a new key into a full shard evicts exactly the
least-recently-used (tail) entry and places the new entry at the head;
a `Get` hit promotes the entry to the head (most recently used); and
after inserting `N` distinct keys into an empty shard the retained
keys are exactly the most recently inserted ones (the reversed insertion
order truncated at capacity) — in particular exactly `shard_capacity`
entries remain once `N ≥ shard_capacity`. -/
theorem lru_shard_invariants {V : Type} (c : LRUCache V) (key : String) (v : V)
    (exp now : ℤ) (cap : ℕ) (kvs : List (String × V × ℤ)) :
    ((c.entries.length ≤ c.capacity →
        (c.setWithExpiration key v exp).entries.length ≤ c.capacity) ∧
     (c.entries.length ≤ c.capacity →
        (c.get key now).2.entries.length ≤ c.capacity)) ∧
    (key ∉ lruKeys c → c.entries.length = c.capacity → 0 < c.capacity →
      (c.setWithExpiration key v exp).entries = (key, v, exp) :: c.entries.dropLast) ∧
    ((c.get key now).1 = some v →
      ∃ e, (c.get key now).2.entries =
        (key, v, e) :: c.entries.filter (fun p => p.1 ≠ key)) ∧
    ((kvs.map (·.1)).Nodup →
      lruKeys (lruInsertAll (mkLRUCache V cap) kvs) = (kvs.map (·.1)).reverse.take cap ∧
      (cap ≤ kvs.length →
        (lruInsertAll (mkLRUCache V cap) kvs).entries.length = cap)) := by
  refine ⟨⟨fun h => lruSet_length_le c key v exp h, fun h => lruGet_length_le c key now h⟩,
    fun hk hfull hpos => lruSet_evicts_tail c key v exp hk hfull hpos,
    fun hhit => lruGet_promotes c key now v hhit, ?_⟩
  intro hnodup
  have hempty : lruKeys (mkLRUCache V cap) = [] := rfl
  have hkeys := lruInsertAll_keys kvs (mkLRUCache V cap)
    (by rw [hempty, List.append_nil]; exact List.nodup_reverse.2 hnodup) (by simp [mkLRUCache])
  rw [hempty, List.append_nil] at hkeys
  have hcapeq : (mkLRUCache V cap).capacity = cap := rfl
  rw [hcapeq] at hkeys
  refine ⟨hkeys, fun hge => ?_⟩
  have hlenkeys : (lruInsertAll (mkLRUCache V cap) kvs).entries.length =
      (lruKeys (lruInsertAll (mkLRUCache V cap) kvs)).length := by
    simp [lruKeys]
  rw [hlenkeys, hkeys, List.length_take]
  simp only [List.length_reverse, List.length_map]
  omega

/-- C2 witness: inserting three distinct keys into an empty shard of
capacity two retains exactly the two most recent keys, most recent
first. -/
theorem lru_shard_invariants_witness :
    lruKeys (lruInsertAll (mkLRUCache ℕ 2)
        [("a", 0, 0), ("b", 1, 0), ("c", 2, 0)]) =
      (([("a", 0, 0), ("b", 1, 0), ("c", 2, 0)] :
          List (String × ℕ × ℤ)).map (·.1)).reverse.take 2 ∧
    (lruInsertAll (mkLRUCache ℕ 2)
        [("a", 0, 0), ("b", 1, 0), ("c", 2, 0)]).entries.length = 2 := by
  have h := (lru_shard_invariants (mkLRUCache ℕ 2) "x" 0 0 0 2
    [("a", 0, 0), ("b", 1, 0), ("c", 2, 0)]).2.2.2 (by decide)
  exact ⟨h.1, h.2 (by decide)⟩

/-! ## Claim C1: partial results and the shared cache -/

set_option maxRecDepth 4000 in
/-- C1: on a cache miss `handleGenerateNames` stores whatever
`GenerateWithContext` returned — `s.cache.Set(cacheKey, names)` is
unconditional — so a partial accumulator produced by an elapsed compute
deadline IS written into the shared cache: in the concrete
deadline-elapsing scenario the response holds the 1-of-5 partial list
`["Adam"]`, and a subsequent probe of the shared cache under the same
key returns that partial list. -/
theorem partial_result_is_cached :
    partialScenarioResult.1 =
      .ok { sessionID := "s1", names := ["Adam"], numOfEntries := 1 } ∧
    (partialScenarioResult.2.1.get "A:5" 0).1 = some ["Adam"] := by
  constructor
  · rfl
  · rfl

/-! ## Claim C10: generator result capped by the name table -/

lemma drainLoop_length_le (count : ℕ) (ctxDone : ℕ → Bool) :
    ∀ (arrivals : List (Option String)) (k i : ℕ) (names : List String),
      (drainLoop count ctxDone arrivals k i names).1.length ≤ names.length := by
  intro arrivals
  induction arrivals with
  | nil =>
    intro k i names
    simp [drainLoop]
  | cons r rest ih =>
    intro k i names
    simp only [drainLoop]
    by_cases h1 : count ≤ i
    · rw [if_pos h1]
    · rw [if_neg h1]
      by_cases h2 : ctxDone k
      · rw [if_pos h2]
        simp [List.length_take]
      · rw [if_neg h2]
        cases r with
        | some name =>
          have := ih (k + 1) (i + 1) (names.set i name)
          simpa [List.length_set] using this
        | none => exact ih (k + 1) i names

lemma memoLookup_length (g : NameGenerator) (letter1 : String) (count1 : ℕ)
    (result : List String) (h : memoLookup g letter1 count1 = some result) :
    result.length ≤ count1 := by
  unfold memoLookup at h
  cases hf : g.nameCache.find? (fun p => p.1 = (letter1, count1)) with
  | none => rw [hf] at h; simp at h
  | some c =>
    rw [hf] at h
    dsimp only at h
    by_cases hle : count1 ≤ c.2.length
    · rw [if_pos hle] at h
      obtain rfl : c.2.take count1 = result := by simpa using h
      rw [List.length_take]
      exact inf_le_left
    · rw [if_neg hle] at h
      simp at h

lemma generate_length_le_20 (g : NameGenerator) (randomLetter : String)
    (ctxDone : ℕ → Bool) (arrivals : List (Option String)) (letter : String) (count : ℤ) :
    (g.generateWithContext randomLetter ctxDone arrivals letter count).1.length ≤ 20 := by
  have hrows : ∀ row ∈ namesByLetter, row.2.length = 20 := by decide
  unfold NameGenerator.generateWithContext
  by_cases hc : count ≤ 0
  · rw [if_pos hc]
    simp
  · rw [if_neg hc]
    dsimp only
    cases hf : namesByLetter.find?
        (fun p => p.1 = (if letter = "" then randomLetter else letter.front.toUpper.toString))
      with
    | none => simp
    | some row =>
      obtain ⟨key1, namesList⟩ := row
      have hlen20 : namesList.length = 20 :=
        hrows _ (List.mem_of_find?_eq_some hf)
      dsimp only [Option.map]
      by_cases hz : namesList.length = 0
      · rw [if_pos hz]
        simp
      · rw [if_neg hz]
        have hcount1 : min count.toNat namesList.length ≤ 20 := by
          rw [← hlen20]
          exact min_le_right _ _
        cases hmemo : memoLookup g
            (if letter = "" then randomLetter else letter.front.toUpper.toString)
            (min count.toNat namesList.length) with
        | some result =>
          dsimp only
          have := memoLookup_length _ _ _ _ hmemo
          omega
        | none =>
          dsimp only
          have hdrain := drainLoop_length_le (min count.toNat namesList.length) ctxDone
            arrivals 0 0 (List.replicate (min count.toNat namesList.length) "")
          rw [List.length_replicate] at hdrain
          split <;> (dsimp only; omega)

set_option maxRecDepth 4000 in
/-- C10: the generator's result is capped at the size of the fixed
name table row for the requested letter — every row holds 20 names —
even though the pipeline clamps the requested count only to [1, 100];
the response's `num_of_entries` field is set to the actual length of
the returned names array; and in the concrete full-delivery scenario a
request for 100 names returns exactly 20 (fewer than requested). -/
theorem generator_caps_at_table (g : NameGenerator) (randomLetter : String)
    (ctxDone : ℕ → Bool) (arrivals : List (Option String)) (letter : String) (count : ℤ)
    (cache : ConcurrentLRUCache (List String)) (payload : RequestPayload) (now exp : ℤ)
    (resp : ResponsePayload) :
    (∀ row ∈ namesByLetter, row.2.length = 20) ∧
    ((g.generateWithContext randomLetter ctxDone arrivals letter count).1.length ≤ 20) ∧
    (1 ≤ clampNumOfEntries count ∧ clampNumOfEntries count ≤ 100) ∧
    ((handleGenerateNames cache g payload randomLetter ctxDone arrivals now exp).1 =
        .ok resp → resp.numOfEntries = resp.names.length) ∧
    (fullCountScenario.1 =
      .ok { sessionID := "s1", names := List.replicate 20 "Adam", numOfEntries := 20 }) := by
  refine ⟨by decide, generate_length_le_20 g randomLetter ctxDone arrivals letter count,
    ?_, ?_, ?_⟩
  · unfold clampNumOfEntries
    split
    · omega
    · split <;> omega
  · unfold handleGenerateNames
    by_cases hsid : payload.sessionID = ""
    · rw [if_pos hsid]
      intro h
      simp at h
    · rw [if_neg hsid]
      dsimp only
      cases hg : cache.get (getCacheKey payload.letter
          (clampNumOfEntries payload.numOfEntries)) now with
      | mk fst cache1 =>
        cases fst with
        | none =>
          dsimp only
          intro h
          injection h with h2
          subst h2
          rfl
        | some cachedNames =>
          dsimp only
          intro h
          injection h with h2
          subst h2
          rfl
  · rfl

set_option maxRecDepth 4000 in
/-- C10 witness: the cap theorem applied to the concrete full-delivery
scenario with 100 requested names, whose response reports 20 entries. -/
theorem generator_caps_at_table_witness :
    ({ sessionID := "s1", names := List.replicate 20 "Adam", numOfEntries := 20 } :
      ResponsePayload).numOfEntries =
    ({ sessionID := "s1", names := List.replicate 20 "Adam", numOfEntries := 20 } :
      ResponsePayload).names.length :=
  (generator_caps_at_table mkNameGenerator "A" (fun _ => false)
    (List.replicate 20 (some "Adam")) "A" 100 (mkConcurrentLRUCache (List String) 5000 64)
    { sessionID := "s1", letter := "A", numOfEntries := 100 } 0 600
    { sessionID := "s1", names := List.replicate 20 "Adam", numOfEntries := 20 }).2.2.2.1
    (by rfl)

end GoProject
